import Mathlib

/-!
Verification development for the C-Shell repository.

Shallow embedding of the shell's core: the command parser
(`src/src/command/parser.c`, duplicated in `src/unnamed/part_003`), the
redirection extractor, the file-descriptor redirection machinery, the
line editor (`input.c` section of `parser.c`), the completion engine
(`src/unnamed/part_002`, duplicated in `src/unnamed/part_003`), and the
`exit` built-in (`builtins.c` section of `src/src/command/terminal.c`).

Strings are modelled as `List Char`; machine reads past a NUL terminator
(which the C code can perform on inputs with a trailing backslash) are
modelled as end of input.
-/

namespace CShell

/-- C `isspace` for the ASCII inputs the shell handles:
space, tab, newline, vertical tab, form feed, carriage return. -/
def isCSpace (c : Char) : Bool :=
  c = ' ' || c = '\t' || c = '\n' || c = Char.ofNat 11 || c = Char.ofNat 12 || c = '\r'

/-! ## parse_command (parser.c lines 207-305 / part_003 lines 312-397)

The C loop scans one byte at a time with quote flags `in_single_quotes`
and `in_double_quotes`, building the current argument in a 1024-byte
buffer (bytes beyond offset 1022 are silently dropped by the
`arg_pos < 1023` guards), and stops consuming once 63 arguments have been
collected (`cmd->argc < max_args - 1` with `max_args = 64`).

The two-byte backslash handling of the C code is rendered as a one-byte
automaton with an `esc` flag: the flag records that the previous byte was
an unescaped backslash outside single quotes, and the next byte is then
processed exactly as the C code processes `*current` after `current++`.
A trailing backslash makes the C code read the NUL terminator as the
escaped character (appending a literal backslash when inside double
quotes, nothing otherwise); `pc_finish` reproduces that. -/

/-- Append a byte to the in-progress argument, dropping it when the
1024-byte `arg` buffer is full (the C `arg_pos < 1023` guard). -/
def pushChar (l : List Char) (c : Char) : List Char :=
  if l.length < 1023 then l ++ [c] else l

/-- Scanner state of `parse_command`: collected arguments, current
argument buffer, quote flags, and the pending-backslash flag. -/
structure PCState where
  args : List (List Char)
  cur : List Char
  inS : Bool
  inD : Bool
  esc : Bool
deriving Repr, DecidableEq

/-- Initial scanner state of `parse_command`. -/
def pcInit : PCState := ⟨[], [], false, false, false⟩

/-- End of an argument: space outside quotes (or end of input). Empty
arguments between separators are suppressed (`arg_pos > 0` guard). -/
def pcFlush (st : PCState) : PCState :=
  if st.cur = [] then st else { st with args := st.args ++ [st.cur], cur := [] }

/-- One byte of the `parse_command` scan. -/
def pcStep (st : PCState) (c : Char) : PCState :=
  if st.esc then
    -- the byte after an unescaped backslash (outside single quotes)
    if st.inD then
      if c = '\\' || c = '"' || c = '$' || c = '\n' then
        { st with cur := pushChar st.cur c, esc := false }
      else
        { st with cur := pushChar (pushChar st.cur '\\') c, esc := false }
    else
      { st with cur := pushChar st.cur c, esc := false }
  else if c = '\\' && !st.inS then { st with esc := true }
  else if c = '\'' && !st.inD then { st with inS := !st.inS }
  else if c = '"' && !st.inS then { st with inD := !st.inD }
  else if isCSpace c && !st.inS && !st.inD then pcFlush st
  else { st with cur := pushChar st.cur c }

/-- The `parse_command` scanning loop.  Returns the final scanner state
and the unconsumed input (nonempty exactly when the 63-argument cutoff
stopped the scan early). -/
def pcLoop : List Char → PCState → PCState × List Char
  | [], st => (st, [])
  | c :: rest, st =>
    if 63 ≤ st.args.length then (st, c :: rest)
    else pcLoop rest (pcStep st c)

/-- Unclosed-quote check (parser.c lines 284-288) followed by the final
argument flush (lines 291-299). -/
def pcQuoteCheck (st : PCState) : Except Unit (List (List Char)) :=
  if st.inS || st.inD then .error ()
  else .ok (pcFlush st).args

/-- After the loop: a pending backslash inside double quotes leaves a
literal backslash (the C code reads the NUL as the escaped byte), then
the quote check and the final flush. -/
def pcFinish (st : PCState) : Except Unit (List (List Char)) :=
  pcQuoteCheck (if st.esc && st.inD then { st with cur := pushChar st.cur '\\' } else st)

/-- `parse_command` from parser.c: tokenize an input line into argv.
`Except.error` is the `-1` return (SyntaxError on unclosed quotes). -/
def parse_command (input : List Char) : Except Unit (List (List Char)) :=
  pcFinish (pcLoop input pcInit).1

/-! ## parse_redirections (parser.c lines 26-196 / part_003 lines 151-309)

First a quote-aware scan records the position of the last bare `>`
(`redirect_stdout_pos`), the last `1>` (`redirect_1_pos`, index of the
`1`) and the last `2>` (`redirect_2_pos`, index of the `2`), and sets the
append flags whenever a `>>` form of the corresponding operator occurs.
Then the stdout target is cut out of the buffer by writing NULs, and the
stderr target is found by re-searching the (possibly truncated) buffer
for the first occurrence of `2>`. -/

/-- Result of the position-recording scan of `parse_redirections`. -/
structure RScan where
  inS : Bool
  inD : Bool
  posGt : Option Nat
  pos1 : Option Nat
  pos2 : Option Nat
  appOut : Bool
  appErr : Bool
deriving Repr, DecidableEq

/-- Initial scan state. -/
def rInit : RScan := ⟨false, false, none, none, none, false, false⟩

/-- Operator bookkeeping when a `>` outside quotes at index `i > 0` is
found: dispatch on the previous byte (`1`, `2`, or anything else). -/
def rUpd (s : RScan) (prev : Option Char) (i : Nat) (isApp : Bool) : RScan :=
  if prev = some '1' then { s with pos1 := some (i - 1), appOut := s.appOut || isApp }
  else if prev = some '2' then { s with pos2 := some (i - 1), appErr := s.appErr || isApp }
  else { s with posGt := some i, appOut := s.appOut || isApp }

/-- The quote-aware scan of `parse_redirections`, one byte per step: `i`
is the index of the head of the remaining input, `prev` the byte before
it (`none` at index 0).  The C code advances `current` by two both when a
backslash outside single quotes escapes the following byte and when a
`>>` operator consumes its second `>`; the `skip` flag renders that extra
advance (the skipped byte updates `prev` but is not otherwise
inspected, exactly as in the C scan). -/
def rScanAux : List Char → Nat → Option Char → Bool → RScan → RScan
  | [], _, _, _, s => s
  | c :: rest, i, prev, skip, s =>
    if skip then
      rScanAux rest (i + 1) (some c) false s
    else if c = '\\' && !s.inS then
      rScanAux rest (i + 1) (some c) true s
    else if c = '\'' && !s.inD then
      rScanAux rest (i + 1) (some c) false { s with inS := !s.inS }
    else if c = '"' && !s.inS then
      rScanAux rest (i + 1) (some c) false { s with inD := !s.inD }
    else if !s.inS && !s.inD && c = '>' && decide (0 < i) then
      if rest.head? = some '>' then
        rScanAux rest (i + 1) (some c) true (rUpd s prev i true)
      else
        rScanAux rest (i + 1) (some c) false (rUpd s prev i false)
    else
      rScanAux rest (i + 1) (some c) false s

/-- The full scan of an input line. -/
def redirScan (input : List Char) : RScan := rScanAux input 0 none false rInit

/-- Remove trailing space bytes (the trailing-space loops of
`parse_redirections`; only `' '` is stripped there). -/
def dropTrailingSpaces (l : List Char) : List Char :=
  (l.reverse.dropWhile (fun c => c = ' ')).reverse

/-- `str_trim` from string.c (the implementation travels in
`src/CHANGELOG.md` after the documentation separator, lines 225-235):
`str_trim_right` drops trailing `isspace` bytes in place, then
`str_trim_left` merely advances the returned pointer past leading
whitespace without touching the buffer.  Both parser.c call sites
discard the return value, so the stored string is only right-trimmed;
this definition is that in-place effect. -/
def str_trim (l : List Char) : List Char :=
  (l.reverse.dropWhile isCSpace).reverse

/-- The stderr re-search of `parse_redirections`: index of the first
occurrence of the two-byte pattern `2>` (quote state is ignored there; a
final byte never matches because the byte after it is the NUL). -/
def find2Gt : List Char → Option Nat
  | [] => none
  | [_] => none
  | c :: d :: rest =>
    if c = '2' ∧ d = '>' then some 0 else (find2Gt (d :: rest)).map (· + 1)

/-- Character class used by the redirection theorems: bytes that are
inert to the quote-aware scan (no backslash, quote, or `>`). -/
def scanInert (c : Char) : Prop :=
  c ≠ '\\' ∧ c ≠ '\'' ∧ c ≠ '"' ∧ c ≠ '>'

/-- Scan-inert and not whitespace: bytes that pass unscathed through
both the scanners and the filename trimming. -/
def plainChar (c : Char) : Prop :=
  scanInert c ∧ isCSpace c = false

instance (c : Char) : Decidable (scanInert c) := by
  unfold scanInert
  infer_instance

instance (c : Char) : Decidable (plainChar c) := by
  unfold plainChar
  infer_instance

/-- Redirection record filled by `parse_redirections`
(`RedirectionInfo` in command.h). -/
structure RedirInfo where
  stdoutFile : Option (List Char)
  stderrFile : Option (List Char)
  appOut : Bool
  appErr : Bool
deriving Repr, DecidableEq

/-- `parse_redirections` from parser.c.  Returns `none` on unclosed
quotes (the `-1` return), otherwise the truncated command line (the C
string left in the buffer, up to the first NUL written) together with
the recorded redirection targets. -/
def parse_redirections (input : List Char) : Option (List Char × RedirInfo) :=
  let s := redirScan input
  if s.inS || s.inD then none
  else
    let step1 : List Char × Option (List Char) :=
      match s.posGt, s.pos1 with
      | none, none => (input, none)
      | pg, p1 =>
        -- bare `>` position is preferred over the `1>` position,
        -- but the `1>` bookkeeping applies whenever pos1 is set
        let pos := match pg with | some p => p | none => p1.getD 0
        let is1 := p1.isSome
        let cmdEnd := if is1 then pos - 1 else pos
        let fn0 := pos + 1 + (if is1 then 1 else 0) + (if s.appOut then 1 else 0)
        let fn := (((input.drop fn0).dropWhile (fun c => c = ' ')).takeWhile
          (fun c => c ≠ '>'))
        (input.take cmdEnd, some (str_trim (dropTrailingSpaces fn)))
    let cmd1 := step1.1
    let step2 : List Char × Option (List Char) :=
      match s.pos2 with
      | none => (cmd1, none)
      | some _ =>
        match find2Gt cmd1 with
        | none => (cmd1, none)
        | some i =>
          let fn0 := i + 2 + (if s.appErr then 1 else 0)
          let fn := (cmd1.drop fn0).dropWhile (fun c => c = ' ')
          (cmd1.take i, some (str_trim (dropTrailingSpaces fn)))
    some (step2.1, ⟨step1.2, step2.2, s.appOut, s.appErr⟩)

/-! ## process_command (parser.c lines 576-647 / part_003 lines 54-115) -/

/-- Observable outcome of `process_command` up to dispatch: nothing run
(empty line or empty argv), a parse failure (`-1` return, line
discarded), or a command dispatched with the given argv and
redirections. -/
inductive ProcessOutcome where
  | noop : ProcessOutcome
  | parseError : ProcessOutcome
  | executed : List (List Char) → RedirInfo → ProcessOutcome
deriving Repr, DecidableEq

/-- `process_command`: empty check, `parse_redirections`, then
`parse_command` on the truncated buffer, then dispatch. -/
def process_command (input : List Char) : ProcessOutcome :=
  if input = [] then .noop
  else
    match parse_redirections input with
    | none => .parseError
    | some (cmdline, redir) =>
      match parse_command cmdline with
      | .error _ => .parseError
      | .ok argv => if argv = [] then .noop else .executed argv redir

/-! ## find_longest_common_pfx (part_002 lines 359-389 / part_003
lines 1010-1037)

The C code starts from `strings[0]` and, for each further string,
truncates the running LCP at the first mismatching byte (a shorter
string mismatches at its NUL terminator). -/

/-- One truncation step: the common prefix of the running LCP and the
next string (the inner `while (j < lcp_len && strings[i][j] == lcp[j])`
loop followed by `lcp[j] = '\0'`). -/
def lcpTrunc : List Char → List Char → List Char
  | a :: as, b :: bs => if b = a then a :: lcpTrunc as bs else []
  | _, _ => []

/-- The C `find_longest_common_` `prefix` function: empty input yields
`""`, otherwise fold the truncation over the remaining strings. -/
def find_longest_common_pfx : List (List Char) → List Char
  | [] => []
  | s :: rest => rest.foldl lcpTrunc s

/-! ## Line editor (input.c section of parser.c, lines 1131-1530)

`LineState` keeps the byte buffer and the cursor; `length` is the buffer
length and `capacity` only governs `realloc` growth, which preserves
contents, so it is not part of the model. -/

/-- Editable line: byte buffer and cursor index. -/
structure LineState where
  buffer : List Char
  cursor : Nat
deriving Repr, DecidableEq

/-- `line_state_init`: empty buffer, cursor 0. -/
def lineInit : LineState := ⟨[], 0⟩

/-- `insert_char`: insert at the cursor, advance the cursor. -/
def insert_char (ls : LineState) (c : Char) : LineState :=
  { buffer := ls.buffer.take ls.cursor ++ c :: ls.buffer.drop ls.cursor
    cursor := ls.cursor + 1 }

/-- `delete_char` (backspace): no-op when the cursor is at 0 (the C
function returns -1 without modifying the state). -/
def delete_char (ls : LineState) : LineState :=
  if ls.cursor = 0 then ls
  else { buffer := ls.buffer.take (ls.cursor - 1) ++ ls.buffer.drop ls.cursor
         cursor := ls.cursor - 1 }

/-- `move_cursor_left`. -/
def move_cursor_left (ls : LineState) : LineState :=
  if ls.cursor = 0 then ls else { ls with cursor := ls.cursor - 1 }

/-- `move_cursor_right` (guarded by `cursor >= length`). -/
def move_cursor_right (ls : LineState) : LineState :=
  if ls.buffer.length ≤ ls.cursor then ls else { ls with cursor := ls.cursor + 1 }

/-- `move_cursor_home`. -/
def move_cursor_home (ls : LineState) : LineState := { ls with cursor := 0 }

/-- `move_cursor_end`. -/
def move_cursor_end (ls : LineState) : LineState :=
  { ls with cursor := ls.buffer.length }

/-- `kill_to_end` (Ctrl-K): truncate at the cursor. -/
def kill_to_end (ls : LineState) : LineState :=
  { ls with buffer := ls.buffer.take ls.cursor }

/-- `kill_to_start` (Ctrl-U): delete from start up to the cursor. -/
def kill_to_start (ls : LineState) : LineState :=
  if ls.cursor = 0 then ls
  else { buffer := ls.buffer.drop ls.cursor, cursor := 0 }

/-- The `while (new_cursor > 0 && isspace(buffer[new_cursor]))` loop of
`kill_prev_word` (out-of-range reads yield the NUL byte). -/
def skipWsBack (buf : List Char) : Nat → Nat
  | 0 => 0
  | n + 1 => if isCSpace (buf.getD (n + 1) (Char.ofNat 0)) then skipWsBack buf n else n + 1

/-- The `while (new_cursor > 0 && !isspace(buffer[new_cursor - 1]))`
loop of `kill_prev_word`. -/
def skipWordBack (buf : List Char) : Nat → Nat
  | 0 => 0
  | n + 1 => if isCSpace (buf.getD n (Char.ofNat 0)) then n + 1 else skipWordBack buf n

/-- `kill_prev_word` (Ctrl-W): skip trailing whitespace, then the word,
then splice the tail after the cursor to the new position. -/
def kill_prev_word (ls : LineState) : LineState :=
  if ls.cursor = 0 then ls
  else
    let nc := skipWordBack ls.buffer (skipWsBack ls.buffer (ls.cursor - 1))
    { buffer := ls.buffer.take nc ++ ls.buffer.drop ls.cursor, cursor := nc }

/-- The editing operations of the line editor named by the invariant. -/
inductive LineOp where
  | insert (c : Char)
  | backspace
  | left
  | right
  | home
  | toEnd
  | killEnd
  | killStart
  | killWord
deriving Repr, DecidableEq

/-- Dispatch one editing operation. -/
def applyLineOp (ls : LineState) : LineOp → LineState
  | .insert c => insert_char ls c
  | .backspace => delete_char ls
  | .left => move_cursor_left ls
  | .right => move_cursor_right ls
  | .home => move_cursor_home ls
  | .toEnd => move_cursor_end ls
  | .killEnd => kill_to_end ls
  | .killStart => kill_to_start ls
  | .killWord => kill_prev_word ls

/-- Run a sequence of editing operations. -/
def applyLineOps (ls : LineState) (ops : List LineOp) : LineState :=
  ops.foldl applyLineOp ls

/-! ## Completion engine (part_002)

`handle_tab_completion` (part_002 lines 34-191) is modelled as a pure
function over the tab state (input buffer, cursor, double-tap memory),
parameterized by the candidate source and the `is_directory` predicate
(both touch the filesystem), returning the new state and the byte stream
written to the terminal.

`get_all_completions` (part_002 lines 202-348) is modelled over an
abstract directory listing.  Its first-word command branch is guarded by
`prefix == extract_last_word(prefix)`, a pointer comparison against a
freshly `strdup`ed string, which is always false; the live branches are
the path branch (`last_word` contains `/`) and the current-directory
branch. -/

/-- The word being completed: the suffix of the text before the cursor
after the last `' '` (the `strrchr(prefix, ' ')` computation; the whole
text when there is no space). -/
def afterLastSpace (l : List Char) : List Char :=
  ((l.reverse.takeWhile (fun c => c ≠ ' ')).reverse)

/-- Double-tap memory and line context consumed by
`handle_tab_completion`. -/
structure TabState where
  input : List Char
  cursor : Nat
  lastTabTime : Int
  lastTabPfx : List Char
deriving Repr, DecidableEq

/-- `prefix_match(name, p)`: `strncmp(name, p, strlen(p)) == 0`. -/
def prefix_match (name p : List Char) : Bool :=
  p.isPrefixOf name

/-- Abstract filesystem for the completion engine: `dirs path` lists the
entries of a directory as `(name, is_directory)` pairs, in `readdir`
order. -/
structure FsEnv where
  dirs : List Char → List (List Char × Bool)

/-- One `readdir` entry of `get_directory_completions`: skip `.` and
`..` unless the prefix is exactly one of them, keep prefix matches,
directories marked with a trailing `/`. -/
def dirEntryCompletion (filePfx : List Char) (e : List Char × Bool) :
    Option (List Char) :=
  if (filePfx ≠ ['.'] ∧ filePfx ≠ ['.', '.']) ∧ (e.1 = ['.'] ∨ e.1 = ['.', '.']) then
    none
  else if prefix_match e.1 filePfx then
    some (if e.2 then e.1 ++ ['/'] else e.1)
  else none

/-- `get_directory_completions` (part_002 lines 473-557): entries of
`dirPath` matching `filePfx`. -/
def get_directory_completions (env : FsEnv) (dirPath filePfx : List Char) :
    List (List Char) :=
  (env.dirs dirPath).filterMap (dirEntryCompletion filePfx)

/-- `strcmp(a, b) <= 0` on byte values, the order used by
`compare_strings`/`qsort`. -/
def strLe : List Char → List Char → Bool
  | [], _ => true
  | _ :: _, [] => false
  | a :: as, b :: bs => if a = b then strLe as bs else decide (a.toNat < b.toNat)

/-- The `qsort(completions, count, sizeof(char*), compare_strings)`
call: sort the collected candidates by `strcmp` ascending. -/
def sortStrings (l : List (List Char)) : List (List Char) :=
  List.insertionSort (fun a b => strLe a b = true) l

/-- `get_all_completions` (part_002): path branch when the word contains
a `/` (directory part up to the last slash, `/` itself when the only
slash is the leading one — `last_slash == prefix`), otherwise completion
from the current directory `.` (the command branch is dead code, see
above); then sort. -/
def get_all_completions (env : FsEnv) (w : List Char) : List (List Char) :=
  let raw :=
    if '/' ∈ w then
      let filePfx := (w.reverse.takeWhile (fun c => c ≠ '/')).reverse
      let dirLen := w.length - (filePfx.length + 1)
      let dirPath := if dirLen = 0 then ['/'] else w.take dirLen
      get_directory_completions env dirPath filePfx
    else
      get_directory_completions env ['.'] w
  sortStrings raw

/-- Output and state of one TAB press.  `out` is the byte stream written
to stdout. -/
structure TabResult where
  state : TabState
  out : List Char
deriving Repr, DecidableEq

/-- Spaces printed to erase a previously longer line: the C loop
`for (i = 0; i < clear_len + 1; i++)` with
`clear_len = strlen(prefix) - strlen(input)` (int arithmetic; no
iterations when `clear_len + 1 <= 0`). -/
def clearSpaces (pfxLen newLen : Nat) : List Char :=
  List.replicate (pfxLen + 1 - newLen) ' '

/-- `handle_tab_completion` (part_002 lines 34-191).  `getComps` stands
for `get_all_completions`, `isDir` for `is_directory`; `now` is
`time(NULL)`. -/
def handle_tab_completion (getComps : List Char → List (List Char))
    (isDir : List Char → Bool) (now : Int) (s : TabState) : TabResult :=
  if s.cursor = 0 then ⟨s, []⟩
  else
    let pfx := s.input.take s.cursor
    let lastWord := afterLastSpace pfx
    let before := pfx.take (pfx.length - lastWord.length)
    let comps := getComps lastWord
    match comps with
    | [] => ⟨s, [Char.ofNat 7]⟩
    | [c0] =>
      let newInput := before ++ c0 ++ (if isDir c0 then [] else [' '])
      ⟨⟨newInput, newInput.length, 0, []⟩,
        "\r$ ".toList ++ newInput ++ clearSpaces pfx.length newInput.length ++
          "\r$ ".toList ++ newInput⟩
    | _ =>
      if now - s.lastTabTime ≤ 1 ∧ s.lastTabPfx = lastWord then
        ⟨{ s with lastTabTime := 0, lastTabPfx := [] },
          '\n' :: (List.intercalate "  ".toList comps) ++ "\n$ ".toList ++ s.input⟩
      else
        let lcp := find_longest_common_pfx comps
        if lastWord.length < lcp.length then
          let newInput := before ++ lcp
          ⟨⟨newInput, newInput.length, now, lastWord⟩,
            "\r$ ".toList ++ newInput ++ clearSpaces pfx.length newInput.length ++
              "\r$ ".toList ++ newInput⟩
        else
          ⟨{ s with lastTabTime := now, lastTabPfx := lastWord }, [Char.ofNat 7]⟩

/-! ## Redirection setup/restore over file descriptors
(parser.c lines 712-845 / part_003 lines 400-519)

The kernel file-descriptor table is a list of slots, slot `i` holding
the open file description (a numeric id) that descriptor `i` refers to,
or `none` when the descriptor is closed.  `dup` and `open` allocate the
lowest closed descriptor, `open` creating a fresh description; `dup2`
makes the target refer to the source's description; `close` frees the
slot.  `openOk` tells whether opening a given path succeeds. -/

/-- Kernel state: descriptor table and the next fresh description id. -/
structure FdState where
  table : List (Option Nat)
  nextDesc : Nat
deriving Repr, DecidableEq

/-- The description descriptor `i` refers to (closed beyond the table). -/
def getFd (st : FdState) (i : Nat) : Option Nat :=
  st.table.getD i none

/-- Write slot `i`, growing the table with closed slots as needed. -/
def setSlot : List (Option Nat) → Nat → Option Nat → List (Option Nat)
  | [], 0, v => [v]
  | [], n + 1, v => none :: setSlot [] n v
  | _ :: rest, 0, v => v :: rest
  | x :: rest, n + 1, v => x :: setSlot rest n v

/-- Index of the lowest closed descriptor. -/
def findFree : List (Option Nat) → Nat
  | [] => 0
  | none :: _ => 0
  | some _ :: rest => findFree rest + 1

/-- `dup(fd)`: lowest free descriptor referring to `fd`'s description. -/
def sysDup (st : FdState) (fd : Nat) : Nat × FdState :=
  let f := findFree st.table
  (f, { st with table := setSlot st.table f (getFd st fd) })

/-- `open(path, ...)`: on success, lowest free descriptor with a fresh
open file description. -/
def sysOpen (ok : Bool) (st : FdState) : Option (Nat × FdState) :=
  if ok then
    let f := findFree st.table
    some (f, ⟨setSlot st.table f (some st.nextDesc), st.nextDesc + 1⟩)
  else none

/-- `dup2(src, dst)`. -/
def sysDup2 (st : FdState) (src dst : Nat) : FdState :=
  { st with table := setSlot st.table dst (getFd st src) }

/-- `close(fd)`. -/
def sysClose (st : FdState) (fd : Nat) : FdState :=
  { st with table := setSlot st.table fd none }

/-- Result of `setup_redirections`: the C return value, the
`backup_fds`/`new_fds` arrays (`none` is `-1`), and the kernel state. -/
structure SetupResult where
  ok : Bool
  backup0 : Option Nat
  backup1 : Option Nat
  new0 : Option Nat
  new1 : Option Nat
  st : FdState
deriving Repr, DecidableEq

/-- `setup_redirections` (parser.c lines 712-815): back up and redirect
stdout, then stderr; on an `open` failure, close what was opened and
undo the stdout redirection exactly as the C error paths do.  (`dup` and
`dup2` failures require descriptor-table exhaustion and are not
modelled.) -/
def setup_redirections (openOk : List Char → Bool) (redir : RedirInfo)
    (st : FdState) : SetupResult :=
  match redir.stdoutFile with
  | none =>
    -- no stdout redirection: go on to stderr with backup0 = new0 = -1
    (match redir.stderrFile with
     | none => ⟨true, none, none, none, none, st⟩
     | some f =>
       let (b1, st1) := sysDup st 2
       match sysOpen (openOk f) st1 with
       | none => ⟨false, none, none, none, none, sysClose st1 b1⟩
       | some (n1, st2) => ⟨true, none, some b1, none, some n1, sysDup2 st2 n1 2⟩)
  | some f =>
    let (b0, st1) := sysDup st 1
    match sysOpen (openOk f) st1 with
    | none => ⟨false, none, none, none, none, sysClose st1 b0⟩
    | some (n0, st2) =>
      let st3 := sysDup2 st2 n0 1
      match redir.stderrFile with
      | none => ⟨true, some b0, none, some n0, none, st3⟩
      | some g =>
        let (b1, st4) := sysDup st3 2
        match sysOpen (openOk g) st4 with
        | none =>
          -- close backup1, then undo the stdout redirection
          let st5 := sysClose st4 b1
          let st6 := sysClose (sysClose (sysDup2 st5 b0 1) b0) n0
          ⟨false, none, none, none, none, st6⟩
        | some (n1, st5) => ⟨true, some b0, some b1, some n0, some n1, sysDup2 st5 n1 2⟩

/-- `restore_redirections` (parser.c lines 825-845): for each redirected
stream, `dup2` the backup over the stream descriptor, close the backup,
close the opened file. -/
def restore_redirections (b0 b1 n0 n1 : Option Nat) (st : FdState) : FdState :=
  let st1 :=
    match b0 with
    | none => st
    | some b =>
      let t := sysClose (sysDup2 st b 1) b
      match n0 with | none => t | some n => sysClose t n
  match b1 with
  | none => st1
  | some b =>
    let t := sysClose (sysDup2 st1 b 2) b
    match n1 with | none => t | some n => sysClose t n

/-- Descriptor-table effect of one `process_command` run past parsing:
set up redirections; when that fails, stop (the C code returns -1 after
the internal cleanup); otherwise run the command (built-in or external —
neither changes the parent's descriptor table) and restore. -/
def process_command_fds (openOk : List Char → Bool) (redir : RedirInfo)
    (st : FdState) : FdState :=
  let r := setup_redirections openOk redir st
  if r.ok then restore_redirections r.backup0 r.backup1 r.new0 r.new1 r.st
  else r.st

/-! ## builtin_exit (builtins.c section of terminal.c, lines 494-518) -/

/-- Numeric value of a digit run. -/
def digitsVal (l : List Char) : Nat :=
  l.foldl (fun acc c => 10 * acc + (c.toNat - 48)) 0

/-- `strtol(arg, &endptr, 10)`: skip whitespace, optional sign, digits;
when no digits follow, the value is 0 and `endptr` is reset to the start
of the string.  Returns the value and the unconsumed suffix (`endptr`).
(Long-overflow clamping is not modelled; shell statuses are small.) -/
def strtol10 (l : List Char) : Int × List Char :=
  let l1 := l.dropWhile isCSpace
  let sgnRest : Int × List Char :=
    match l1 with
    | '+' :: r => (1, r)
    | '-' :: r => (-1, r)
    | _ => (1, l1)
  let ds := sgnRest.2.takeWhile (fun c => c.isDigit)
  let rest := sgnRest.2.dropWhile (fun c => c.isDigit)
  if ds = [] then (0, l)
  else (sgnRest.1 * (digitsVal ds : Int), rest)

/-- `builtin_exit`: result is the process exit status together with the
message written to stderr, if any (`exit(status)` then terminates the
process).  With an argument whose `strtol` end pointer is not the
terminating NUL, the message is printed and the status forced to 2. -/
def builtin_exit (argv : List (List Char)) : Int × Option (List Char) :=
  if 1 < argv.length then
    let a := argv.getD 1 []
    let (v, rest) := strtol10 a
    if rest ≠ [] then
      (2, some ("exit: ".toList ++ a ++ ": numeric argument required".toList))
    else (v, none)
  else (0, none)

/-! ## Theorems -/

/-! ### C10: TAB at cursor 0 is a complete no-op -/

/-- C10: a TAB press with the cursor at position 0 leaves the input
buffer, the cursor, and the double-tap memory unchanged and writes
nothing to the terminal (the whole body of `handle_tab_completion` is
guarded by `*cursor_pos > 0`). -/
theorem tab_completion_noop_at_cursor_zero
    (getComps : List Char → List (List Char)) (isDir : List Char → Bool)
    (now : Int) (s : TabState) (h : s.cursor = 0) :
    handle_tab_completion getComps isDir now s = ⟨s, []⟩ := by
  simp [handle_tab_completion, h]

/-- Witness for C10 at a concrete state. -/
theorem tab_completion_noop_at_cursor_zero_witness :
    handle_tab_completion (fun _ => [['a']]) (fun _ => false) 5
      ⟨['a', 'b'], 0, 3, ['x']⟩ = ⟨⟨['a', 'b'], 0, 3, ['x']⟩, []⟩ :=
  tab_completion_noop_at_cursor_zero (fun _ => [['a']]) (fun _ => false) 5
    ⟨['a', 'b'], 0, 3, ['x']⟩ rfl

/-! ### C5: exit with a non-numeric argument -/

/-- C5: invoking the `exit` built-in with a present, non-numeric
argument (one whose `strtol` end pointer is not the terminating NUL)
prints `exit: <n>: numeric argument required` to stderr and exits the
process with status 2. -/
theorem builtin_exit_non_numeric (c a : List Char) (rest : List (List Char))
    (h : (strtol10 a).2 ≠ []) :
    builtin_exit (c :: a :: rest) =
      (2, some ("exit: ".toList ++ a ++ ": numeric argument required".toList)) := by
  simp [builtin_exit, h]

/-- Witness for C5: `exit foo`. -/
theorem builtin_exit_non_numeric_witness :
    builtin_exit ("exit".toList :: "foo".toList :: []) =
      (2, some ("exit: ".toList ++ "foo".toList ++
        ": numeric argument required".toList)) :=
  builtin_exit_non_numeric "exit".toList "foo".toList [] (by decide)

/-! ### C6: longest common prefix -/

theorem lcpTrunc_pre_left (a b : List Char) : lcpTrunc a b <+: a := by
  induction a generalizing b with
  | nil => cases b <;> simp [lcpTrunc]
  | cons x xs ih =>
    cases b with
    | nil => simp [lcpTrunc]
    | cons y ys =>
      by_cases h : y = x
      · subst h
        simpa [lcpTrunc] using ih ys
      · simp [lcpTrunc, h]

theorem lcpTrunc_pre_right (a b : List Char) : lcpTrunc a b <+: b := by
  induction a generalizing b with
  | nil => cases b <;> simp [lcpTrunc]
  | cons x xs ih =>
    cases b with
    | nil => simp [lcpTrunc]
    | cons y ys =>
      by_cases h : y = x
      · subst h
        simpa [lcpTrunc] using ih ys
      · simp [lcpTrunc, h]

theorem pre_lcpTrunc {p a b : List Char} (ha : p <+: a) (hb : p <+: b) :
    p <+: lcpTrunc a b := by
  induction p generalizing a b with
  | nil => exact List.nil_prefix
  | cons x xs ih =>
    obtain ⟨ta, rfl⟩ := ha
    obtain ⟨tb, hb'⟩ := hb
    cases b with
    | nil => simp at hb'
    | cons y ys =>
      obtain ⟨h1, hys⟩ : x = y ∧ xs ++ tb = ys := by
        simpa using hb'
      subst h1
      simpa [lcpTrunc] using ih ⟨ta, rfl⟩ ⟨tb, hys⟩

theorem foldl_lcpTrunc_pre_acc (l : List (List Char)) (acc : List Char) :
    l.foldl lcpTrunc acc <+: acc := by
  induction l generalizing acc with
  | nil => exact List.prefix_refl _
  | cons x xs ih =>
    exact (ih (lcpTrunc acc x)).trans (lcpTrunc_pre_left acc x)

theorem foldl_lcpTrunc_pre_mem {l : List (List Char)} {acc x : List Char}
    (hx : x ∈ l) : l.foldl lcpTrunc acc <+: x := by
  induction l generalizing acc with
  | nil => simp at hx
  | cons y ys ih =>
    rcases List.mem_cons.mp hx with rfl | hx'
    · exact (foldl_lcpTrunc_pre_acc ys (lcpTrunc acc x)).trans
        (lcpTrunc_pre_right acc x)
    · exact ih hx'

theorem pre_foldl_lcpTrunc {l : List (List Char)} {acc p : List Char}
    (hacc : p <+: acc) (hl : ∀ x ∈ l, p <+: x) :
    p <+: l.foldl lcpTrunc acc := by
  induction l generalizing acc with
  | nil => exact hacc
  | cons y ys ih =>
    exact ih (pre_lcpTrunc hacc (hl y (by simp)))
      (fun x hx => hl x (by simp [hx]))

/-- C6: for every non-empty candidate set `S`, the computed longest
common prefix is a prefix of every candidate, and no strictly longer
string is a prefix of every candidate (every common prefix is at most as
long). -/
theorem lcp_correct (S : List (List Char)) (hS : S ≠ []) :
    (∀ c ∈ S, find_longest_common_pfx S <+: c) ∧
      (∀ p : List Char, (∀ c ∈ S, p <+: c) →
        p.length ≤ (find_longest_common_pfx S).length) := by
  obtain ⟨s, rest, rfl⟩ : ∃ s rest, S = s :: rest := by
    cases S with
    | nil => exact absurd rfl hS
    | cons s rest => exact ⟨s, rest, rfl⟩
  constructor
  · intro c hc
    rcases List.mem_cons.mp hc with rfl | hc'
    · exact foldl_lcpTrunc_pre_acc rest c
    · exact foldl_lcpTrunc_pre_mem hc'
  · intro p hp
    have : p <+: find_longest_common_pfx (s :: rest) :=
      pre_foldl_lcpTrunc (hp s (by simp)) (fun x hx => hp x (by simp [hx]))
    exact this.length_le

/-- Witness for C6 at a concrete candidate set. -/
theorem lcp_correct_witness :
    ((['a', 'b', 'c'] : List Char) :: [['a', 'b', 'd'], ['a', 'b']]) ≠ [] ∧
      (∀ c ∈ (['a', 'b', 'c'] : List Char) :: [['a', 'b', 'd'], ['a', 'b']],
        find_longest_common_pfx
          ((['a', 'b', 'c'] : List Char) :: [['a', 'b', 'd'], ['a', 'b']]) <+: c) :=
  ⟨by decide,
    (lcp_correct ((['a', 'b', 'c'] : List Char) :: [['a', 'b', 'd'], ['a', 'b']])
      (by decide)).1⟩

/-! ### C8: the cursor stays within the buffer -/

theorem skipWsBack_le (buf : List Char) (n : Nat) : skipWsBack buf n ≤ n := by
  induction n with
  | zero => simp [skipWsBack]
  | succ m ih =>
    simp only [skipWsBack]
    split
    · exact Nat.le_succ_of_le ih
    · exact Nat.le_refl _

theorem skipWordBack_le (buf : List Char) (n : Nat) : skipWordBack buf n ≤ n := by
  induction n with
  | zero => simp [skipWordBack]
  | succ m ih =>
    simp only [skipWordBack]
    split
    · exact Nat.le_refl _
    · exact Nat.le_succ_of_le ih

theorem applyLineOp_cursor_le (ls : LineState) (op : LineOp)
    (h : ls.cursor ≤ ls.buffer.length) :
    (applyLineOp ls op).cursor ≤ (applyLineOp ls op).buffer.length := by
  cases op with
  | insert c =>
    simp only [applyLineOp, insert_char, List.length_append, List.length_take,
      List.length_cons, List.length_drop]
    omega
  | backspace =>
    simp only [applyLineOp, delete_char]
    split
    · exact h
    · simp only [List.length_append, List.length_take, List.length_drop]
      omega
  | left =>
    simp only [applyLineOp, move_cursor_left]
    split
    · exact h
    · exact Nat.le_trans (Nat.sub_le _ _) h
  | right =>
    simp only [applyLineOp, move_cursor_right]
    split
    · exact h
    · next hlt => simp only []; omega
  | home => simp [applyLineOp, move_cursor_home]
  | toEnd => simp [applyLineOp, move_cursor_end]
  | killEnd =>
    simp only [applyLineOp, kill_to_end, List.length_take]
    omega
  | killStart =>
    simp only [applyLineOp, kill_to_start]
    split
    · exact h
    · simp
  | killWord =>
    simp only [applyLineOp, kill_prev_word]
    split
    · exact h
    · have h1 : skipWordBack ls.buffer (skipWsBack ls.buffer (ls.cursor - 1)) ≤
          ls.cursor - 1 :=
        Nat.le_trans (skipWordBack_le _ _) (skipWsBack_le _ _)
      simp only [List.length_append, List.length_take, List.length_drop]
      omega

/-- C8: for every sequence of line-editor operations starting from an
initialized `LineState`, the cursor index stays in `[0, length buffer]`
after every single operation and after the whole sequence (the lower
bound holds because indices are naturals). -/
theorem line_editor_cursor_in_range :
    (∀ (ls : LineState) (op : LineOp), ls.cursor ≤ ls.buffer.length →
      (applyLineOp ls op).cursor ≤ (applyLineOp ls op).buffer.length) ∧
    (∀ ops : List LineOp,
      (applyLineOps lineInit ops).cursor ≤ (applyLineOps lineInit ops).buffer.length) := by
  refine ⟨applyLineOp_cursor_le, ?_⟩
  intro ops
  suffices h : ∀ (ops : List LineOp) (ls : LineState),
      ls.cursor ≤ ls.buffer.length →
      (applyLineOps ls ops).cursor ≤ (applyLineOps ls ops).buffer.length by
    exact h ops lineInit (by simp [lineInit])
  intro ops
  induction ops with
  | nil => intro ls h; exact h
  | cons op rest ih =>
    intro ls h
    exact ih (applyLineOp ls op) (applyLineOp_cursor_le ls op h)

/-- Witness for C8 at a concrete state and operation. -/
theorem line_editor_cursor_in_range_witness :
    (applyLineOp ⟨['a', 'b'], 1⟩ .killWord).cursor ≤
      (applyLineOp ⟨['a', 'b'], 1⟩ .killWord).buffer.length :=
  line_editor_cursor_in_range.1 ⟨['a', 'b'], 1⟩ .killWord (by decide)

/-! ### C9: at most 64 argv entries, early stop, success -/

theorem pcStep_inv (st : PCState) (c : Char) (h : st.args.length < 63) :
    (pcStep st c).args.length ≤ 63 ∧
      ((pcStep st c).args.length = 63 →
        (pcStep st c).cur = [] ∧ (pcStep st c).inS = false ∧
          (pcStep st c).inD = false) := by
  unfold pcStep pcFlush
  repeat' split
  all_goals simp_all
  all_goals omega

theorem pcLoop_inv (input : List Char) (st : PCState)
    (h1 : st.args.length ≤ 63)
    (h2 : st.args.length = 63 → st.cur = [] ∧ st.inS = false ∧ st.inD = false) :
    ((pcLoop input st).1.args.length ≤ 63 ∧
      ((pcLoop input st).1.args.length = 63 →
        (pcLoop input st).1.cur = [] ∧ (pcLoop input st).1.inS = false ∧
          (pcLoop input st).1.inD = false)) ∧
      ((pcLoop input st).2 ≠ [] → 63 ≤ (pcLoop input st).1.args.length) := by
  induction input generalizing st with
  | nil => exact ⟨⟨h1, h2⟩, by simp [pcLoop]⟩
  | cons c rest ih =>
    by_cases hc : 63 ≤ st.args.length
    · have heq : pcLoop (c :: rest) st = (st, c :: rest) := by
        simp [pcLoop, hc]
      rw [heq]
      exact ⟨⟨h1, h2⟩, fun _ => hc⟩
    · have hlt : st.args.length < 63 := Nat.lt_of_not_le hc
      have hstep := pcStep_inv st c hlt
      have := ih (pcStep st c) hstep.1 hstep.2
      simpa [pcLoop, hc] using this

theorem pcFlush_args_le (st : PCState) :
    (pcFlush st).args.length ≤ st.args.length + 1 := by
  unfold pcFlush
  split
  · exact Nat.le_succ _
  · simp

theorem pcFlush_args_of_empty (st : PCState) (h : st.cur = []) :
    (pcFlush st).args = st.args := by
  simp [pcFlush, h]

theorem pcFinish_ok_length (st : PCState) (args : List (List Char))
    (h1 : st.args.length ≤ 63)
    (h2 : st.args.length = 63 → st.cur = [] ∧ st.inS = false ∧ st.inD = false)
    (h : pcFinish st = .ok args) : args.length ≤ 63 := by
  unfold pcFinish pcQuoteCheck at h
  split at h
  · -- pending backslash inside double quotes: st.inD is true,
    -- so the argument count is strictly below 63
    next hesc =>
    have hlt : st.args.length < 63 := by
      rcases Nat.lt_or_ge st.args.length 63 with hlt | hge
      · exact hlt
      · obtain ⟨-, -, hD⟩ := h2 (Nat.le_antisymm h1 hge)
        rw [hD] at hesc
        simp at hesc
    split at h
    · exact absurd h (by simp)
    · obtain rfl : (pcFlush { st with cur := pushChar st.cur '\\' }).args = args := by
        simpa using h
      have harg : ({ st with cur := pushChar st.cur '\\' } : PCState).args = st.args := rfl
      exact Nat.le_trans (pcFlush_args_le _) (by rw [harg]; omega)
  · split at h
    · exact absurd h (by simp)
    · obtain rfl : (pcFlush st).args = args := by simpa using h
      rcases Nat.lt_or_ge st.args.length 63 with hlt | hge
      · exact Nat.le_trans (pcFlush_args_le _) (by omega)
      · obtain ⟨hcur, -, -⟩ := h2 (Nat.le_antisymm h1 hge)
        rw [pcFlush_args_of_empty st hcur]
        exact h1

/-- C9: `parse_command` yields at most 63 argument strings (so at most
64 `argv` slots counting the terminating NULL); when the 63-argument
cutoff stops the scan before the end of the input, the remaining bytes
are discarded and the function still returns success with exactly 63
arguments. -/
theorem parse_command_argv_bounded (input : List Char) :
    (∀ args, parse_command input = .ok args → args.length ≤ 63) ∧
      ((pcLoop input pcInit).2 ≠ [] →
        parse_command input = .ok (pcLoop input pcInit).1.args ∧
          (pcLoop input pcInit).1.args.length = 63) := by
  have hinv := pcLoop_inv input pcInit (by simp [pcInit]) (by simp [pcInit])
  constructor
  · intro args hargs
    unfold parse_command at hargs
    exact pcFinish_ok_length _ args hinv.1.1 hinv.1.2 hargs
  · intro hrest
    have h63le := hinv.2 hrest
    have h63 : (pcLoop input pcInit).1.args.length = 63 :=
      Nat.le_antisymm hinv.1.1 h63le
    obtain ⟨hcur, hS, hD⟩ := hinv.1.2 h63
    refine ⟨?_, h63⟩
    unfold parse_command
    simp [pcFinish, pcQuoteCheck, hS, hD, hcur, pcFlush]

/-- Witness for C9 at a concrete input. -/
theorem parse_command_argv_bounded_witness :
    parse_command ['a', ' ', 'b'] = .ok [['a'], ['b']] ∧
      ([['a'], ['b']] : List (List Char)).length ≤ 63 :=
  ⟨rfl, (parse_command_argv_bounded ['a', ' ', 'b']).1 [['a'], ['b']] rfl⟩

/-! ### C1: unclosed quotes are a syntax error, no command runs -/

/-- C1: when end of input is reached with the single- or double-quote
scanner state still open, parsing fails and no command is executed:
`process_command` stops with a parse error (the quote check in
`parse_redirections`), and `parse_command`'s own scan, when it consumes
the whole input and ends with a quote flag set, returns the SyntaxError
`-1` (its lines 284-288). -/
theorem unclosed_quotes_syntax_error (input : List Char) :
    ((((redirScan input).inS || (redirScan input).inD) = true →
        process_command input = .parseError) ∧
      (((pcLoop input pcInit).2 = [] ∧
          (((pcLoop input pcInit).1.inS || (pcLoop input pcInit).1.inD) = true)) →
        parse_command input = .error ())) := by
  constructor
  · intro h
    have hne : input ≠ [] := by
      intro he
      rw [he] at h
      simp [redirScan, rScanAux, rInit] at h
    unfold process_command parse_redirections
    simp only [if_neg hne]
    rw [if_pos h]
  · rintro ⟨-, h2⟩
    unfold parse_command pcFinish pcQuoteCheck
    have hS : ((pcLoop input pcInit).1.inS || (pcLoop input pcInit).1.inD) = true := h2
    split <;> simp [hS]

/-- Witness for C1: `echo "a` (unclosed double quote). -/
theorem unclosed_quotes_syntax_error_witness :
    process_command ['e', 'c', 'h', 'o', ' ', '"', 'a'] = .parseError ∧
      parse_command ['e', 'c', 'h', 'o', ' ', '"', 'a'] = .error () :=
  ⟨(unclosed_quotes_syntax_error ['e', 'c', 'h', 'o', ' ', '"', 'a']).1 (by decide),
    (unclosed_quotes_syntax_error ['e', 'c', 'h', 'o', ' ', '"', 'a']).2
      ⟨by decide, by decide⟩⟩

/-! ### C4: single-candidate completion -/

/-- C4: a TAB press that yields exactly one candidate replaces the word
being completed by that candidate, appends a single trailing space
exactly when the candidate is not a directory, moves the cursor to the
end of the replacement, and resets the double-tap memory.  (This is the
part_002 version, the behavior the specification fixes; directory
candidates carry the trailing `/` added by `get_directory_completions`.) -/
theorem single_candidate_completion
    (getComps : List Char → List (List Char)) (isDir : List Char → Bool)
    (now : Int) (s : TabState) (c0 : List Char)
    (hc : 0 < s.cursor)
    (hcomp : getComps (afterLastSpace (s.input.take s.cursor)) = [c0]) :
    (handle_tab_completion getComps isDir now s).state =
      let pfx := s.input.take s.cursor
      let lastWord := afterLastSpace pfx
      let newInput := pfx.take (pfx.length - lastWord.length) ++ c0 ++
        (if isDir c0 then [] else [' '])
      ⟨newInput, newInput.length, 0, []⟩ := by
  unfold handle_tab_completion
  rw [if_neg (by omega)]
  simp only [hcomp]

/-- Witness for C4: completing `ec` to the sole candidate `echo`. -/
theorem single_candidate_completion_witness :
    (handle_tab_completion (fun _ => [['e', 'c', 'h', 'o']]) (fun _ => false) 9
        ⟨['e', 'c'], 2, 0, []⟩).state =
      ⟨['e', 'c', 'h', 'o', ' '], 5, 0, []⟩ :=
  single_candidate_completion (fun _ => [['e', 'c', 'h', 'o']]) (fun _ => false) 9
    ⟨['e', 'c'], 2, 0, []⟩ ['e', 'c', 'h', 'o'] (by decide) rfl

/-! ### C2: redirection setup/restore preserves descriptors 1 and 2 -/

theorem setSlot_getD_self (l : List (Option Nat)) (i : Nat) (v : Option Nat) :
    (setSlot l i v).getD i none = v := by
  induction i generalizing l with
  | zero => cases l <;> simp [setSlot]
  | succ n ih =>
    cases l with
    | nil => simpa [setSlot] using ih []
    | cons x rest => simpa [setSlot] using ih rest

theorem setSlot_getD_ne (l : List (Option Nat)) {i j : Nat} (v : Option Nat)
    (h : j ≠ i) : (setSlot l i v).getD j none = l.getD j none := by
  induction i generalizing l j with
  | zero =>
    obtain ⟨m, rfl⟩ : ∃ m, j = m + 1 := ⟨j - 1, by omega⟩
    cases l <;> simp [setSlot]
  | succ n ih =>
    cases l with
    | nil =>
      cases j with
      | zero => simp [setSlot]
      | succ m => simpa [setSlot] using ih [] (by omega)
    | cons x rest =>
      cases j with
      | zero => simp [setSlot]
      | succ m => simpa [setSlot] using ih rest (by omega)

theorem findFree_getD (l : List (Option Nat)) : l.getD (findFree l) none = none := by
  induction l with
  | nil => simp [findFree]
  | cons x rest ih =>
    cases x with
    | none => simp [findFree]
    | some d => simpa [findFree] using ih

theorem findFree_ne_of_getFd {u : FdState} {j d : Nat} (h : getFd u j = some d) :
    findFree u.table ≠ j := by
  intro he
  rw [← he] at h
  rw [getFd] at h
  rw [findFree_getD] at h
  exact absurd h (by simp)

theorem getFd_sysClose_ne (u : FdState) (fd j : Nat) (h : j ≠ fd) :
    getFd (sysClose u fd) j = getFd u j :=
  setSlot_getD_ne u.table none h

theorem getFd_sysDup2_ne (u : FdState) (src dst j : Nat) (h : j ≠ dst) :
    getFd (sysDup2 u src dst) j = getFd u j :=
  setSlot_getD_ne u.table _ h

theorem getFd_sysDup2_self (u : FdState) (src dst : Nat) :
    getFd (sysDup2 u src dst) dst = getFd u src :=
  setSlot_getD_self u.table dst _

theorem getFd_sysDup_ne (u : FdState) (fd j : Nat) (h : j ≠ findFree u.table) :
    getFd (sysDup u fd).2 j = getFd u j :=
  setSlot_getD_ne u.table _ h

theorem getFd_sysDup_self (u : FdState) (fd : Nat) :
    getFd (sysDup u fd).2 (findFree u.table) = getFd u fd :=
  setSlot_getD_self u.table _ _

/-- C2: on every return path of `process_command`'s redirection
machinery — no redirection, stdout and/or stderr redirected, or a
failure to open either target — descriptors 1 and 2 afterwards refer to
the same open file descriptions they referred to before the call;
in particular applying then restoring a redirection is a no-op on
descriptors 1 and 2. -/
theorem process_command_preserves_fds (openOk : List Char → Bool)
    (redir : RedirInfo) (st : FdState) (d1 d2 : Nat)
    (h1 : getFd st 1 = some d1) (h2 : getFd st 2 = some d2) :
    getFd (process_command_fds openOk redir st) 1 = some d1 ∧
      getFd (process_command_fds openOk redir st) 2 = some d2 := by
  obtain ⟨so, se, ao, ae⟩ := redir
  unfold process_command_fds setup_redirections
  cases so with
  | none =>
    cases se with
    | none => simpa using ⟨h1, h2⟩
    | some f =>
      -- stderr-only redirection
      simp only [sysDup]
      set B1 := findFree st.table with hB1
      have hB1n1 : B1 ≠ 1 := (findFree_ne_of_getFd h1)
      have hB1n2 : B1 ≠ 2 := (findFree_ne_of_getFd h2)
      set st1 : FdState := { st with table := setSlot st.table B1 (getFd st 2) } with hst1
      have hst1g1 : getFd st1 1 = some d1 := by
        rw [hst1, getFd, setSlot_getD_ne st.table _ (Ne.symm hB1n1)]
        exact h1
      have hst1g2 : getFd st1 2 = some d2 := by
        rw [hst1, getFd, setSlot_getD_ne st.table _ (Ne.symm hB1n2)]
        exact h2
      have hst1gB1 : getFd st1 B1 = some d2 := by
        rw [hst1, getFd, setSlot_getD_self, h2]
      by_cases hof : openOk f = true
      · simp only [sysOpen, hof, if_pos]
        set N1 := findFree st1.table with hN1
        have hN1n1 : N1 ≠ 1 := findFree_ne_of_getFd hst1g1
        have hN1n2 : N1 ≠ 2 := findFree_ne_of_getFd hst1g2
        have hN1nB1 : N1 ≠ B1 := findFree_ne_of_getFd hst1gB1
        set st2 : FdState := ⟨setSlot st1.table N1 (some st1.nextDesc), st1.nextDesc + 1⟩
          with hst2
        have hst2g1 : getFd st2 1 = some d1 := by
          rw [hst2, getFd, setSlot_getD_ne st1.table _ (Ne.symm hN1n1)]
          exact hst1g1
        have hst2gB1 : getFd st2 B1 = some d2 := by
          rw [hst2, getFd, setSlot_getD_ne st1.table _ (fun he => hN1nB1 he.symm)]
          exact hst1gB1
        simp only [restore_redirections]
        constructor
        · rw [getFd_sysClose_ne _ _ _ (Ne.symm hN1n1),
            getFd_sysClose_ne _ _ _ (Ne.symm hB1n1),
            getFd_sysDup2_ne _ _ _ _ (by omega),
            getFd_sysDup2_ne _ _ _ _ (by omega)]
          exact hst2g1
        · rw [getFd_sysClose_ne _ _ _ (Ne.symm hN1n2),
            getFd_sysClose_ne _ _ _ (Ne.symm hB1n2),
            getFd_sysDup2_self]
          rw [getFd_sysDup2_ne _ _ _ _ hB1n2]
          exact hst2gB1
      · simp only [sysOpen, hof]
        simp only [Bool.false_eq_true, if_false]
        constructor
        · rw [getFd_sysClose_ne _ _ _ (Ne.symm hB1n1)]
          exact hst1g1
        · rw [getFd_sysClose_ne _ _ _ (Ne.symm hB1n2)]
          exact hst1g2
  | some f =>
    simp only [sysDup]
    set B0 := findFree st.table with hB0
    have hB0n1 : B0 ≠ 1 := findFree_ne_of_getFd h1
    have hB0n2 : B0 ≠ 2 := findFree_ne_of_getFd h2
    set st1 : FdState := { st with table := setSlot st.table B0 (getFd st 1) } with hst1
    have hst1g1 : getFd st1 1 = some d1 := by
      rw [hst1, getFd, setSlot_getD_ne st.table _ (Ne.symm hB0n1)]
      exact h1
    have hst1g2 : getFd st1 2 = some d2 := by
      rw [hst1, getFd, setSlot_getD_ne st.table _ (Ne.symm hB0n2)]
      exact h2
    have hst1gB0 : getFd st1 B0 = some d1 := by
      rw [hst1, getFd, setSlot_getD_self, h1]
    by_cases hof : openOk f = true
    case neg =>
      simp only [sysOpen, hof]
      simp only [Bool.false_eq_true, if_false]
      constructor
      · rw [getFd_sysClose_ne _ _ _ (Ne.symm hB0n1)]
        exact hst1g1
      · rw [getFd_sysClose_ne _ _ _ (Ne.symm hB0n2)]
        exact hst1g2
    case pos =>
    simp only [sysOpen, hof, if_pos]
    set N0 := findFree st1.table with hN0
    have hN0n1 : N0 ≠ 1 := findFree_ne_of_getFd hst1g1
    have hN0n2 : N0 ≠ 2 := findFree_ne_of_getFd hst1g2
    have hN0nB0 : N0 ≠ B0 := findFree_ne_of_getFd hst1gB0
    set st2 : FdState := ⟨setSlot st1.table N0 (some st1.nextDesc), st1.nextDesc + 1⟩
      with hst2
    have hst2g2 : getFd st2 2 = some d2 := by
      rw [hst2, getFd, setSlot_getD_ne st1.table _ (Ne.symm hN0n2)]
      exact hst1g2
    have hst2gB0 : getFd st2 B0 = some d1 := by
      rw [hst2, getFd, setSlot_getD_ne st1.table _ (fun he => hN0nB0 he.symm)]
      exact hst1gB0
    have hst2gN0 : getFd st2 N0 = some st1.nextDesc := by
      rw [hst2, getFd, setSlot_getD_self]
    set st3 : FdState := sysDup2 st2 N0 1 with hst3
    have hst3g1 : getFd st3 1 = some st1.nextDesc := by
      rw [hst3, getFd_sysDup2_self]
      exact hst2gN0
    have hst3g2 : getFd st3 2 = some d2 := by
      rw [hst3, getFd_sysDup2_ne _ _ _ _ (by omega)]
      exact hst2g2
    have hst3gB0 : getFd st3 B0 = some d1 := by
      rw [hst3, getFd_sysDup2_ne _ _ _ _ hB0n1]
      exact hst2gB0
    have hst3gN0 : getFd st3 N0 = some st1.nextDesc := by
      rw [hst3, getFd_sysDup2_ne _ _ _ _ hN0n1]
      exact hst2gN0
    cases se with
    | none =>
      show getFd (restore_redirections (some B0) none (some N0) none st3) 1 = some d1 ∧
        getFd (restore_redirections (some B0) none (some N0) none st3) 2 = some d2
      simp only [restore_redirections]
      constructor
      · rw [getFd_sysClose_ne _ _ _ (Ne.symm hN0n1),
          getFd_sysClose_ne _ _ _ (Ne.symm hB0n1), getFd_sysDup2_self]
        exact hst3gB0
      · rw [getFd_sysClose_ne _ _ _ (Ne.symm hN0n2),
          getFd_sysClose_ne _ _ _ (Ne.symm hB0n2),
          getFd_sysDup2_ne _ _ _ _ (by omega)]
        exact hst3g2
    | some g =>
      simp only [sysDup]
      set B1 := findFree st3.table with hB1
      have hB1n1 : B1 ≠ 1 := findFree_ne_of_getFd hst3g1
      have hB1n2 : B1 ≠ 2 := findFree_ne_of_getFd hst3g2
      have hB1nB0 : B1 ≠ B0 := findFree_ne_of_getFd hst3gB0
      have hB1nN0 : B1 ≠ N0 := findFree_ne_of_getFd hst3gN0
      set st4 : FdState := { st3 with table := setSlot st3.table B1 (getFd st3 2) }
        with hst4
      have hst4g1 : getFd st4 1 = some st1.nextDesc := by
        rw [hst4, getFd, setSlot_getD_ne st3.table _ (Ne.symm hB1n1)]
        exact hst3g1
      have hst4g2 : getFd st4 2 = some d2 := by
        rw [hst4, getFd, setSlot_getD_ne st3.table _ (Ne.symm hB1n2)]
        exact hst3g2
      have hst4gB0 : getFd st4 B0 = some d1 := by
        rw [hst4, getFd, setSlot_getD_ne st3.table _ (fun he => hB1nB0 he.symm)]
        exact hst3gB0
      have hst4gB1 : getFd st4 B1 = some d2 := by
        rw [hst4, getFd, setSlot_getD_self, hst3g2]
      by_cases hog : openOk g = true
      case neg =>
        simp only [sysOpen, hog]
        simp only [Bool.false_eq_true, if_false]
        -- close backup1, then undo the stdout redirection
        have hst5gB0 : getFd (sysClose st4 B1) B0 = some d1 := by
          rw [getFd_sysClose_ne _ _ _ (fun he => hB1nB0 he.symm)]
          exact hst4gB0
        have hst5g2 : getFd (sysClose st4 B1) 2 = some d2 := by
          rw [getFd_sysClose_ne _ _ _ (Ne.symm hB1n2)]
          exact hst4g2
        constructor
        · rw [getFd_sysClose_ne _ _ _ (Ne.symm hN0n1),
            getFd_sysClose_ne _ _ _ (Ne.symm hB0n1), getFd_sysDup2_self]
          exact hst5gB0
        · rw [getFd_sysClose_ne _ _ _ (Ne.symm hN0n2),
            getFd_sysClose_ne _ _ _ (Ne.symm hB0n2),
            getFd_sysDup2_ne _ _ _ _ (by omega)]
          exact hst5g2
      case pos =>
        simp only [sysOpen, hog, if_pos]
        set N1 := findFree st4.table with hN1
        have hN1n1 : N1 ≠ 1 := findFree_ne_of_getFd hst4g1
        have hN1n2 : N1 ≠ 2 := findFree_ne_of_getFd hst4g2
        have hN1nB0 : N1 ≠ B0 := findFree_ne_of_getFd hst4gB0
        have hN1nB1 : N1 ≠ B1 := findFree_ne_of_getFd hst4gB1
        set st5 : FdState := ⟨setSlot st4.table N1 (some st4.nextDesc), st4.nextDesc + 1⟩
          with hst5
        have hst5gB0 : getFd st5 B0 = some d1 := by
          rw [hst5, getFd, setSlot_getD_ne st4.table _ (fun he => hN1nB0 he.symm)]
          exact hst4gB0
        have hst5gB1 : getFd st5 B1 = some d2 := by
          rw [hst5, getFd, setSlot_getD_ne st4.table _ (fun he => hN1nB1 he.symm)]
          exact hst4gB1
        set st6 : FdState := sysDup2 st5 N1 2 with hst6
        have hst6gB0 : getFd st6 B0 = some d1 := by
          rw [hst6, getFd_sysDup2_ne _ _ _ _ hB0n2]
          exact hst5gB0
        have hst6gB1 : getFd st6 B1 = some d2 := by
          rw [hst6, getFd_sysDup2_ne _ _ _ _ hB1n2]
          exact hst5gB1
        show getFd (restore_redirections (some B0) (some B1) (some N0) (some N1) st6) 1 =
            some d1 ∧
          getFd (restore_redirections (some B0) (some B1) (some N0) (some N1) st6) 2 = some d2
        simp only [restore_redirections]
        set st7 : FdState := sysClose (sysClose (sysDup2 st6 B0 1) B0) N0 with hst7
        have hst7g1 : getFd st7 1 = some d1 := by
          rw [hst7, getFd_sysClose_ne _ _ _ (Ne.symm hN0n1),
            getFd_sysClose_ne _ _ _ (Ne.symm hB0n1), getFd_sysDup2_self]
          exact hst6gB0
        have hst7gB1 : getFd st7 B1 = some d2 := by
          rw [hst7, getFd_sysClose_ne _ _ _ hB1nN0, getFd_sysClose_ne _ _ _ hB1nB0,
            getFd_sysDup2_ne _ _ _ _ hB1n1]
          exact hst6gB1
        constructor
        · rw [getFd_sysClose_ne _ _ _ (Ne.symm hN1n1),
            getFd_sysClose_ne _ _ _ (Ne.symm hB1n1),
            getFd_sysDup2_ne _ _ _ _ (by omega)]
          exact hst7g1
        · rw [getFd_sysClose_ne _ _ _ (Ne.symm hN1n2),
            getFd_sysClose_ne _ _ _ (Ne.symm hB1n2), getFd_sysDup2_self]
          exact hst7gB1

/-- Witness for C2: both streams redirected, both opens succeed. -/
theorem process_command_preserves_fds_witness :
    getFd (process_command_fds (fun _ => true) ⟨some ['f'], some ['g'], false, false⟩
        ⟨[some 10, some 11, some 12], 100⟩) 1 = some 11 ∧
      getFd (process_command_fds (fun _ => true) ⟨some ['f'], some ['g'], false, false⟩
        ⟨[some 10, some 11, some 12], 100⟩) 2 = some 12 :=
  process_command_preserves_fds (fun _ => true) ⟨some ['f'], some ['g'], false, false⟩
    ⟨[some 10, some 11, some 12], 100⟩ 11 12 rfl rfl

/-! ### C7: double-tap candidate listing, sorted and deduplicated -/

theorem char_eq_of_toNat_eq {x y : Char} (h : x.toNat = y.toNat) : x = y :=
  Char.eq_of_val_eq (UInt32.toNat.inj h)

theorem strLe_total : ∀ a b : List Char, strLe a b = true ∨ strLe b a = true
  | [], _ => Or.inl rfl
  | _ :: _, [] => Or.inr rfl
  | x :: xs, y :: ys => by
    by_cases hxy : x = y
    · subst hxy
      rcases strLe_total xs ys with h | h
      · exact Or.inl (by simpa [strLe] using h)
      · exact Or.inr (by simpa [strLe] using h)
    · have hne : x.toNat ≠ y.toNat := fun h => hxy (char_eq_of_toNat_eq h)
      rcases Nat.lt_or_ge x.toNat y.toNat with h | h
      · exact Or.inl (by simp [strLe, hxy, h])
      · have hlt : y.toNat < x.toNat := by omega
        exact Or.inr (by simp [strLe, Ne.symm hxy, hlt])

theorem strLe_trans :
    ∀ (a b c : List Char), strLe a b = true → strLe b c = true → strLe a c = true
  | [], _, _, _, _ => rfl
  | _ :: _, [], _, h1, _ => by simp [strLe] at h1
  | _ :: _, _ :: _, [], _, h2 => by simp [strLe] at h2
  | x :: xs, y :: ys, z :: zs, h1, h2 => by
    by_cases hxy : x = y <;> by_cases hyz : y = z
    · subst hxy hyz
      simp only [strLe, if_pos rfl] at h1 h2 ⊢
      exact strLe_trans xs ys zs h1 h2
    · subst hxy
      simpa [strLe, hyz] using h2
    · subst hyz
      simpa [strLe, hxy] using h1
    · simp only [strLe, if_neg hxy, if_neg hyz, decide_eq_true_eq] at h1 h2
      by_cases hxz : x = z
      · subst hxz
        omega
      · simp [strLe, hxz]
        omega

instance : IsTotal (List Char) (fun a b => strLe a b = true) := ⟨strLe_total⟩

instance : IsTrans (List Char) (fun a b => strLe a b = true) :=
  ⟨fun a b c => strLe_trans a b c⟩

theorem sortStrings_sorted (l : List (List Char)) :
    List.Sorted (fun a b => strLe a b = true) (sortStrings l) :=
  List.sorted_insertionSort _ l

theorem sortStrings_perm (l : List (List Char)) : List.Perm (sortStrings l) l :=
  List.perm_insertionSort _ l

theorem dirEntryCompletion_some {fp : List Char} {e : List Char × Bool}
    {b : List Char} (h : dirEntryCompletion fp e = some b) :
    b = (if e.2 then e.1 ++ ['/'] else e.1) := by
  unfold dirEntryCompletion at h
  split at h
  · exact absurd h (by simp)
  · split at h
    · simpa using h.symm
    · exact absurd h (by simp)

theorem markName_inj {n1 n2 : List Char} {d1 d2 : Bool}
    (h1 : '/' ∉ n1) (h2 : '/' ∉ n2)
    (he : (if d1 then n1 ++ ['/'] else n1) = (if d2 then n2 ++ ['/'] else n2)) :
    n1 = n2 := by
  cases d1 <;> cases d2 <;> simp at he
  · exact he
  · exact absurd (he ▸ List.mem_append_right n2 (by simp)) h1
  · exact absurd (he ▸ List.mem_append_right n1 (by simp)) h2
  · exact he

theorem gdc_nodup (env : FsEnv) (dp fp : List Char)
    (hnd : ((env.dirs dp).map Prod.fst).Nodup)
    (hsl : ∀ e ∈ env.dirs dp, '/' ∉ e.1) :
    (get_directory_completions env dp fp).Nodup := by
  unfold get_directory_completions
  revert hnd hsl
  induction env.dirs dp with
  | nil => intro _ _; simp
  | cons e es ih =>
    intro hnd hsl
    rw [List.map_cons] at hnd
    obtain ⟨hhead, htail⟩ := List.nodup_cons.mp hnd
    have ihres := ih htail (fun e' he' => hsl e' (by simp [he']))
    rw [List.filterMap_cons]
    cases hde : dirEntryCompletion fp e with
    | none => exact ihres
    | some b =>
      refine List.nodup_cons.mpr ⟨?_, ihres⟩
      intro hb
      obtain ⟨e', he', hde'⟩ := List.mem_filterMap.mp hb
      have hbe := dirEntryCompletion_some hde
      have hbe' := dirEntryCompletion_some hde'
      have hname : e.1 = e'.1 :=
        markName_inj (hsl e (by simp)) (hsl e' (by simp [he'])) (hbe ▸ hbe')
      exact hhead (hname ▸ List.mem_map.mpr ⟨e', he', rfl⟩)

theorem get_all_completions_sorted_nodup (env : FsEnv)
    (hnd : ∀ dp, ((env.dirs dp).map Prod.fst).Nodup)
    (hsl : ∀ dp, ∀ e ∈ env.dirs dp, '/' ∉ e.1) (w : List Char) :
    List.Sorted (fun a b => strLe a b = true) (get_all_completions env w) ∧
      (get_all_completions env w).Nodup := by
  unfold get_all_completions
  constructor
  · exact sortStrings_sorted _
  · refine (sortStrings_perm _).nodup_iff.mpr ?_
    split
    · exact gdc_nodup env _ _ (hnd _) (hsl _)
    · exact gdc_nodup env _ _ (hnd _) (hsl _)

/-- C7: a TAB press with at least two candidates, with double-tap
memory set, the stored tap at most one second old and the stored prefix
equal to the word being completed, prints all candidates on a new line
separated by two spaces, redraws the prompt and buffer (`\n$ ` followed
by the unchanged input), resets the double-tap memory and leaves the
buffer and cursor unchanged; the candidates produced by
`get_all_completions` are in byte-wise ascending `strcmp` order with
duplicates removed (assuming each directory listing has distinct names
and file names contain no `/`). -/
theorem double_tap_lists_candidates (env : FsEnv)
    (hnd : ∀ dp, ((env.dirs dp).map Prod.fst).Nodup)
    (hsl : ∀ dp, ∀ e ∈ env.dirs dp, '/' ∉ e.1)
    (isDir : List Char → Bool) (now : Int) (s : TabState)
    (hc : 0 < s.cursor)
    (hn : 2 ≤ (get_all_completions env (afterLastSpace (s.input.take s.cursor))).length)
    (_hset : s.lastTabTime ≠ 0)
    (ht : now - s.lastTabTime ≤ 1)
    (hp : s.lastTabPfx = afterLastSpace (s.input.take s.cursor)) :
    handle_tab_completion (get_all_completions env) isDir now s =
        ⟨{ s with lastTabTime := 0, lastTabPfx := [] },
          '\n' :: (List.intercalate "  ".toList
              (get_all_completions env (afterLastSpace (s.input.take s.cursor)))) ++
            "\n$ ".toList ++ s.input⟩ ∧
      List.Sorted (fun a b => strLe a b = true)
        (get_all_completions env (afterLastSpace (s.input.take s.cursor))) ∧
      (get_all_completions env (afterLastSpace (s.input.take s.cursor))).Nodup := by
  obtain ⟨a, b, t, hshape⟩ : ∃ a b t,
      get_all_completions env (afterLastSpace (s.input.take s.cursor)) = a :: b :: t := by
    cases hg : get_all_completions env (afterLastSpace (s.input.take s.cursor)) with
    | nil => rw [hg] at hn; simp at hn
    | cons a rest =>
      cases rest with
      | nil => rw [hg] at hn; simp at hn
      | cons b t => exact ⟨a, b, t, rfl⟩
  have hsn := get_all_completions_sorted_nodup env hnd hsl
    (afterLastSpace (s.input.take s.cursor))
  refine ⟨?_, hsn.1, hsn.2⟩
  unfold handle_tab_completion
  rw [if_neg (by omega)]
  simp only [hshape]
  rw [if_pos ⟨ht, hp⟩]

/-- Witness for C7: double tap on `a` with candidates `ab` and `ac`. -/
theorem double_tap_lists_candidates_witness :
    handle_tab_completion
        (get_all_completions ⟨fun _ => [(['a', 'b'], false), (['a', 'c'], false)]⟩)
        (fun _ => false) 6 ⟨['a'], 1, 5, ['a']⟩ =
      ⟨⟨['a'], 1, 0, []⟩,
        '\n' :: (List.intercalate "  ".toList [['a', 'b'], ['a', 'c']]) ++
          "\n$ ".toList ++ ['a']⟩ := by
  have h := double_tap_lists_candidates
    ⟨fun _ => [(['a', 'b'], false), (['a', 'c'], false)]⟩
    (by
      intro dp
      show (List.map Prod.fst [(['a', 'b'], false), (['a', 'c'], false)]).Nodup
      decide)
    (by
      intro dp
      show ∀ e ∈ [(['a', 'b'], false), (['a', 'c'], false)], '/' ∉ e.1
      decide)
    (fun _ => false) 6 ⟨['a'], 1, 5, ['a']⟩
    (by decide) (by decide) (by decide) (by decide) (by decide)
  exact h.1.trans (by decide)

/-! ### C3: which redirection operator wins -/

theorem rScanAux_cons_inert (c : Char) (rest : List Char) (i : Nat)
    (prev : Option Char) (s : RScan) (hS : s.inS = false) (hD : s.inD = false)
    (hc : scanInert c) :
    rScanAux (c :: rest) i prev false s = rScanAux rest (i + 1) (some c) false s := by
  obtain ⟨h1, h2, h3, h4⟩ := hc
  simp [rScanAux, h1, h2, h3, h4]

theorem rScanAux_seg_inert (w : List Char) :
    ∀ (rest : List Char) (i : Nat) (prev : Option Char) (s : RScan),
      s.inS = false → s.inD = false → (∀ c ∈ w, scanInert c) →
      rScanAux (w ++ rest) i prev false s =
        rScanAux rest (i + w.length) (w.foldl (fun _ c => some c) prev) false s := by
  induction w with
  | nil => intro rest i prev s _ _ _; simp
  | cons c w' ih =>
    intro rest i prev s hS hD hw
    rw [List.cons_append,
      rScanAux_cons_inert c (w' ++ rest) i prev s hS hD (hw c (by simp))]
    rw [ih rest (i + 1) (some c) s hS hD (fun d hd => hw d (by simp [hd]))]
    have : i + 1 + w'.length = i + (w'.length + 1) := by omega
    rw [this]
    rfl

theorem rUpd_other (s : RScan) (prev : Option Char) (i : Nat)
    (h1 : prev ≠ some '1') (h2 : prev ≠ some '2') :
    rUpd s prev i false = { s with posGt := some i } := by
  simp [rUpd, h1, h2]

theorem rUpd_one (s : RScan) (i : Nat) :
    rUpd s (some '1') i false = { s with pos1 := some (i - 1) } := by
  simp [rUpd]

theorem rUpd_two (s : RScan) (i : Nat) :
    rUpd s (some '2') i false = { s with pos2 := some (i - 1) } := by
  simp [rUpd]

theorem rScanAux_cons_gt (rest : List Char) (i : Nat) (prev : Option Char)
    (s : RScan) (hS : s.inS = false) (hD : s.inD = false) (hi : 0 < i)
    (hnext : rest.head? ≠ some '>') :
    rScanAux ('>' :: rest) i prev false s =
      rScanAux rest (i + 1) (some '>') false (rUpd s prev i false) := by
  simp [rScanAux, hS, hD, hi, hnext]

theorem dropWhile_eq_self_of_head {p : Char → Bool} {l : List Char}
    (h : ∀ c, l.head? = some c → p c = false) : l.dropWhile p = l := by
  cases l with
  | nil => rfl
  | cons a t => simp [List.dropWhile_cons, h a rfl]

theorem takeWhile_eq_self_of_all {p : Char → Bool} {l : List Char}
    (h : ∀ c ∈ l, p c = true) : l.takeWhile p = l := by
  induction l with
  | nil => rfl
  | cons a t ih =>
    rw [List.takeWhile_cons, h a (by simp)]
    simp [ih (fun c hc => h c (by simp [hc]))]

theorem dropTrailingSpaces_eq_self {l : List Char}
    (h : ∀ c, l.reverse.head? = some c → c ≠ ' ') : dropTrailingSpaces l = l := by
  unfold dropTrailingSpaces
  rw [dropWhile_eq_self_of_head (fun c hc => by simp [h c hc])]
  exact List.reverse_reverse l

theorem str_trim_eq_self {l : List Char}
    (hl : ∀ c, l.reverse.head? = some c → isCSpace c = false) : str_trim l = l := by
  unfold str_trim
  rw [dropWhile_eq_self_of_head hl]
  exact List.reverse_reverse l

theorem find2Gt_at (xs rest : List Char) (hxs : '>' ∉ xs) :
    find2Gt (xs ++ '2' :: '>' :: rest) = some xs.length := by
  induction xs with
  | nil => simp [find2Gt]
  | cons x xs' ih =>
    have hxne : '>' ∉ xs' := fun h => hxs (by simp [h])
    cases xs' with
    | nil =>
      have hx2 : ¬(x = '2' ∧ '2' = '>') := by
        rintro ⟨-, h⟩
        simp at h
      simp [find2Gt, hx2, ih hxne]
    | cons y ys =>
      have hy : y ≠ '>' := fun h => hxs (by simp [h])
      have hxy : ¬(x = '2' ∧ y = '>') := fun h => hy h.2
      rw [List.cons_append]
      rw [show (y :: ys) ++ '2' :: '>' :: rest = y :: (ys ++ '2' :: '>' :: rest) from rfl]
        at ih ⊢
      simp [find2Gt, hxy]
      rw [show y :: (ys ++ '2' :: '>' :: rest) = (y :: ys) ++ '2' :: '>' :: rest from rfl]
      simp [ih hxne]

theorem plainChar_ne_space {c : Char} (h : plainChar c) : c ≠ ' ' := by
  intro he
  subst he
  simp [plainChar, isCSpace] at h

theorem rScanAux_inert_only (w : List Char) (i : Nat) (prev : Option Char)
    (s : RScan) (hS : s.inS = false) (hD : s.inD = false)
    (hw : ∀ c ∈ w, scanInert c) : rScanAux w i prev false s = s := by
  have h := rScanAux_seg_inert w [] i prev s hS hD hw
  rw [List.append_nil] at h
  rw [h]
  rfl

theorem redirScan_bare (w f1 f2 : List Char)
    (hw : ∀ c ∈ w, scanInert c) (hf1 : ∀ c ∈ f1, scanInert c)
    (hf2 : ∀ c ∈ f2, scanInert c) :
    redirScan (w ++ ' ' :: '>' :: ' ' :: (f1 ++ ' ' :: '>' :: ' ' :: f2)) =
      { rInit with posGt := some (w.length + f1.length + 4) } := by
  unfold redirScan
  rw [rScanAux_seg_inert w _ 0 none rInit rfl rfl hw]
  rw [rScanAux_cons_inert ' ' _ _ _ rInit rfl rfl (by decide)]
  rw [rScanAux_cons_gt _ _ _ rInit rfl rfl (by omega) (by simp)]
  rw [rUpd_other rInit _ _ (by simp) (by simp)]
  rw [rScanAux_cons_inert ' ' _ _ _ _ rfl rfl (by decide)]
  rw [rScanAux_seg_inert f1 _ _ _ _ rfl rfl hf1]
  rw [rScanAux_cons_inert ' ' _ _ _ _ rfl rfl (by decide)]
  rw [rScanAux_cons_gt _ _ _ _ rfl rfl (by omega) (by simp)]
  rw [rUpd_other _ _ _ (by simp) (by simp)]
  rw [rScanAux_cons_inert ' ' _ _ _ _ rfl rfl (by decide)]
  rw [rScanAux_inert_only f2 _ _ _ rfl rfl hf2]
  have harith : 0 + w.length + 1 + 1 + 1 + f1.length + 1 = w.length + f1.length + 4 := by
    omega
  rw [harith]

theorem redirScan_one (w f1 f2 : List Char)
    (hw : ∀ c ∈ w, scanInert c) (hf1 : ∀ c ∈ f1, scanInert c)
    (hf2 : ∀ c ∈ f2, scanInert c) :
    redirScan (w ++ ' ' :: '1' :: '>' :: ' ' :: (f1 ++ ' ' :: '1' :: '>' :: ' ' :: f2)) =
      { rInit with pos1 := some (w.length + f1.length + 5) } := by
  unfold redirScan
  rw [rScanAux_seg_inert w _ 0 none rInit rfl rfl hw]
  rw [rScanAux_cons_inert ' ' _ _ _ rInit rfl rfl (by decide)]
  rw [rScanAux_cons_inert '1' _ _ _ rInit rfl rfl (by decide)]
  rw [rScanAux_cons_gt _ _ _ rInit rfl rfl (by omega) (by simp)]
  rw [rUpd_one rInit _]
  rw [rScanAux_cons_inert ' ' _ _ _ _ rfl rfl (by decide)]
  rw [rScanAux_seg_inert f1 _ _ _ _ rfl rfl hf1]
  rw [rScanAux_cons_inert ' ' _ _ _ _ rfl rfl (by decide)]
  rw [rScanAux_cons_inert '1' _ _ _ _ rfl rfl (by decide)]
  rw [rScanAux_cons_gt _ _ _ _ rfl rfl (by omega) (by simp)]
  rw [rUpd_one _ _]
  rw [rScanAux_cons_inert ' ' _ _ _ _ rfl rfl (by decide)]
  rw [rScanAux_inert_only f2 _ _ _ rfl rfl hf2]
  have harith : 0 + w.length + 1 + 1 + 1 + 1 + f1.length + 1 + 1 - 1 =
      w.length + f1.length + 5 := by omega
  rw [harith]

theorem redirScan_two (w f1 f2 : List Char)
    (hw : ∀ c ∈ w, scanInert c) (hf1 : ∀ c ∈ f1, scanInert c)
    (hf2 : ∀ c ∈ f2, scanInert c) :
    redirScan (w ++ ' ' :: '2' :: '>' :: ' ' :: (f1 ++ ' ' :: '2' :: '>' :: ' ' :: f2)) =
      { rInit with pos2 := some (w.length + f1.length + 5) } := by
  unfold redirScan
  rw [rScanAux_seg_inert w _ 0 none rInit rfl rfl hw]
  rw [rScanAux_cons_inert ' ' _ _ _ rInit rfl rfl (by decide)]
  rw [rScanAux_cons_inert '2' _ _ _ rInit rfl rfl (by decide)]
  rw [rScanAux_cons_gt _ _ _ rInit rfl rfl (by omega) (by simp)]
  rw [rUpd_two rInit _]
  rw [rScanAux_cons_inert ' ' _ _ _ _ rfl rfl (by decide)]
  rw [rScanAux_seg_inert f1 _ _ _ _ rfl rfl hf1]
  rw [rScanAux_cons_inert ' ' _ _ _ _ rfl rfl (by decide)]
  rw [rScanAux_cons_inert '2' _ _ _ _ rfl rfl (by decide)]
  rw [rScanAux_cons_gt _ _ _ _ rfl rfl (by omega) (by simp)]
  rw [rUpd_two _ _]
  rw [rScanAux_cons_inert ' ' _ _ _ _ rfl rfl (by decide)]
  rw [rScanAux_inert_only f2 _ _ _ rfl rfl hf2]
  have harith : 0 + w.length + 1 + 1 + 1 + 1 + f1.length + 1 + 1 - 1 =
      w.length + f1.length + 5 := by omega
  rw [harith]

theorem mem_of_getLast?_eq {l : List Char} {a : Char} (h : l.getLast? = some a) :
    a ∈ l := by
  obtain ⟨hne, rfl⟩ := List.mem_getLast?_eq_getLast (Option.mem_def.mpr h)
  exact List.getLast_mem hne

theorem plain_dropWhile_space {l : List Char} (hl : ∀ c ∈ l, plainChar c) :
    l.dropWhile (fun c => c = ' ') = l :=
  dropWhile_eq_self_of_head fun c hc => by
    simpa using plainChar_ne_space (hl c (List.mem_of_mem_head? hc))

theorem plain_takeWhile_gt {l : List Char} (hl : ∀ c ∈ l, plainChar c) :
    l.takeWhile (fun c => c ≠ '>') = l :=
  takeWhile_eq_self_of_all fun c hc => by
    simpa using (hl c hc).1.2.2.2

theorem plain_dropTrailing {l : List Char} (hl : ∀ c ∈ l, plainChar c) :
    dropTrailingSpaces l = l :=
  dropTrailingSpaces_eq_self fun c hc =>
    plainChar_ne_space (hl c (List.mem_reverse.mp (List.mem_of_mem_head? hc)))

theorem plain_str_trim {l : List Char} (hl : ∀ c ∈ l, plainChar c) :
    str_trim l = l :=
  str_trim_eq_self
    (fun c hc => (hl c (List.mem_reverse.mp (List.mem_of_mem_head? hc))).2)

/-- C3 counterexample: on `echo > a 1> b` the two stdout operators are
spelled differently (`>` then `1>`), and the parser records `a 1` — not
the last operator's path `b` — as the stdout target; on
`echo 2> a 2> b` it records `a 2> b` — everything after the first `2>` —
not the last operator's path `b`, as the stderr target. -/
theorem redirection_last_wins_counterexample :
    (parse_redirections "echo > a 1> b".toList).map (fun r => r.2.stdoutFile) =
        some (some "a 1".toList) ∧
      ("a 1".toList : List Char) ≠ "b".toList ∧
      (parse_redirections "echo 2> a 2> b".toList).map (fun r => r.2.stderrFile) =
        some (some "a 2> b".toList) ∧
      ("a 2> b".toList : List Char) ≠ "b".toList := by
  refine ⟨by decide, by decide, by decide, by decide⟩

/-- C3 (amended): on a line of the exact shape `w > f1 > f2` — two
non-append bare `>` operators, each set off by single spaces — the
parser records the last operator's path `f2` as the stdout target, and
likewise on `w 1> f1 1> f2` with two `1>` operators.  For stderr the
rule fails systematically: on `w 2> f1 2> f2` the recorded stderr
target is the literal text `f1 2> f2`, everything after the first `2>`
(and for mixed `>`/`1>` stdout spellings see the counterexample).
`w` is the command part, free of backslash, quote and `>` bytes;
targets `f1`, `f2` are additionally whitespace-free words. -/
theorem redirection_same_spelling_last_wins (w f1 f2 : List Char)
    (hw : ∀ c ∈ w, scanInert c) (hf1 : ∀ c ∈ f1, plainChar c)
    (hf2 : ∀ c ∈ f2, plainChar c) :
    ((parse_redirections
        (w ++ ' ' :: '>' :: ' ' :: (f1 ++ ' ' :: '>' :: ' ' :: f2))).map
          (fun r => r.2.stdoutFile) = some (some f2)) ∧
      ((parse_redirections
        (w ++ ' ' :: '1' :: '>' :: ' ' :: (f1 ++ ' ' :: '1' :: '>' :: ' ' :: f2))).map
          (fun r => r.2.stdoutFile) = some (some f2)) ∧
      (f1 ≠ [] → f2 ≠ [] →
        (parse_redirections
          (w ++ ' ' :: '2' :: '>' :: ' ' :: (f1 ++ ' ' :: '2' :: '>' :: ' ' :: f2))).map
            (fun r => r.2.stderrFile) =
          some (some (f1 ++ ' ' :: '2' :: '>' :: ' ' :: f2))) := by
  have hf1s : ∀ c ∈ f1, scanInert c := fun c hc => (hf1 c hc).1
  have hf2s : ∀ c ∈ f2, scanInert c := fun c hc => (hf2 c hc).1
  refine ⟨?_, ?_, ?_⟩
  · -- two bare `>` operators
    unfold parse_redirections
    rw [redirScan_bare w f1 f2 hw hf1s hf2s]
    have hdrop : (w ++ ' ' :: '>' :: ' ' :: (f1 ++ ' ' :: '>' :: ' ' :: f2)).drop
        (w.length + f1.length + 4 + 1 + 0 + 0) = ' ' :: f2 := by
      rw [show w ++ ' ' :: '>' :: ' ' :: (f1 ++ ' ' :: '>' :: ' ' :: f2) =
          (w ++ ' ' :: '>' :: ' ' :: (f1 ++ [' ', '>'])) ++ (' ' :: f2) by simp]
      exact List.drop_left' (by simp; omega)
    simp only [rInit]
    simp only [Bool.or_self, Bool.false_eq_true, if_false, Option.isSome_none,
      Bool.false_eq_true, Option.map_some]
    rw [hdrop]
    rw [List.dropWhile_cons, if_pos (by decide)]
    rw [plain_dropWhile_space hf2, plain_takeWhile_gt hf2, plain_dropTrailing hf2,
      plain_str_trim hf2]
    rfl
  · -- two `1>` operators
    unfold parse_redirections
    rw [redirScan_one w f1 f2 hw hf1s hf2s]
    have hdrop : (w ++ ' ' :: '1' :: '>' :: ' ' :: (f1 ++ ' ' :: '1' :: '>' :: ' ' :: f2)).drop
        (w.length + f1.length + 5 + 1 + 1 + 0) = ' ' :: f2 := by
      rw [show w ++ ' ' :: '1' :: '>' :: ' ' :: (f1 ++ ' ' :: '1' :: '>' :: ' ' :: f2) =
          (w ++ ' ' :: '1' :: '>' :: ' ' :: (f1 ++ [' ', '1', '>'])) ++ (' ' :: f2) by simp]
      exact List.drop_left' (by simp; omega)
    simp only [rInit]
    simp only [Bool.or_self, Bool.false_eq_true, if_false, Option.isSome_some,
      if_true, Option.getD_some, Option.map_some]
    rw [hdrop]
    rw [List.dropWhile_cons, if_pos (by decide)]
    rw [plain_dropWhile_space hf2, plain_takeWhile_gt hf2, plain_dropTrailing hf2,
      plain_str_trim hf2]
    rfl
  · -- two `2>` operators: the search finds the first one
    intro hne1 hne2
    unfold parse_redirections
    rw [redirScan_two w f1 f2 hw hf1s hf2s]
    have hfind : find2Gt (w ++ ' ' :: '2' :: '>' :: ' ' :: (f1 ++ ' ' :: '2' :: '>' :: ' ' :: f2)) =
        some (w ++ [' ']).length := by
      rw [show w ++ ' ' :: '2' :: '>' :: ' ' :: (f1 ++ ' ' :: '2' :: '>' :: ' ' :: f2) =
          (w ++ [' ']) ++ '2' :: '>' :: (' ' :: (f1 ++ ' ' :: '2' :: '>' :: ' ' :: f2)) by simp]
      exact find2Gt_at (w ++ [' ']) _ (by
        intro hmem
        rcases List.mem_append.mp hmem with hmw | hms
        · exact (hw '>' hmw).2.2.2 rfl
        · simp at hms)
    have hdrop : (w ++ ' ' :: '2' :: '>' :: ' ' :: (f1 ++ ' ' :: '2' :: '>' :: ' ' :: f2)).drop
        ((w ++ [' ']).length + 2 + 0) = ' ' :: (f1 ++ ' ' :: '2' :: '>' :: ' ' :: f2) := by
      rw [show w ++ ' ' :: '2' :: '>' :: ' ' :: (f1 ++ ' ' :: '2' :: '>' :: ' ' :: f2) =
          (w ++ [' ', '2', '>']) ++ (' ' :: (f1 ++ ' ' :: '2' :: '>' :: ' ' :: f2)) by simp]
      exact List.drop_left' (by simp)
    obtain ⟨c1, f1t, rfl⟩ := List.exists_cons_of_ne_nil hne1
    have hL : ∀ c ∈ (c1 :: f1t) ++ ' ' :: '2' :: '>' :: ' ' :: f2,
        c ∈ (c1 :: f1t) ∨ c = ' ' ∨ c = '2' ∨ c = '>' ∨ c ∈ f2 := by
      intro c hc
      rcases List.mem_append.mp hc with h | h
      · exact Or.inl h
      · simp at h
        rcases h with h | h | h | h | h <;> simp [h]
    simp only [rInit]
    simp only [Bool.or_self, Bool.false_eq_true, if_false, Option.map_some]
    rw [hfind]
    simp only [Bool.false_eq_true, if_false]
    rw [hdrop]
    rw [List.dropWhile_cons, if_pos (by decide)]
    have hdw : ((c1 :: f1t) ++ ' ' :: '2' :: '>' :: ' ' :: f2).dropWhile
        (fun c => c = ' ') = (c1 :: f1t) ++ ' ' :: '2' :: '>' :: ' ' :: f2 := by
      apply dropWhile_eq_self_of_head
      intro c hc
      rw [List.cons_append, List.head?_cons] at hc
      have hceq : c1 = c := by simpa using hc
      rw [← hceq]
      simpa using plainChar_ne_space (hf1 c1 (by simp))
    have hgl : ((c1 :: f1t) ++ ' ' :: '2' :: '>' :: ' ' :: f2).getLast? = f2.getLast? := by
      rw [show (' ' :: '2' :: '>' :: ' ' :: f2 : List Char) =
        [' ', '2', '>', ' '] ++ f2 from rfl, ← List.append_assoc]
      exact List.getLast?_append_of_ne_nil _ hne2
    have hlast : ∀ c, ((c1 :: f1t) ++ ' ' :: '2' :: '>' :: ' ' :: f2).reverse.head? =
        some c → plainChar c := by
      intro c hc
      rw [List.head?_reverse, hgl] at hc
      exact hf2 c (mem_of_getLast?_eq hc)
    rw [hdw]
    rw [dropTrailingSpaces_eq_self (fun c hc => plainChar_ne_space (hlast c hc))]
    rw [str_trim_eq_self (fun c hc => (hlast c hc).2)]
    rfl

/-- Witness for the amended C3 at concrete words. -/
theorem redirection_same_spelling_last_wins_witness :
    (parse_redirections "echo > a > b".toList).map (fun r => r.2.stdoutFile) =
        some (some "b".toList) ∧
      (parse_redirections "echo 2> a 2> b".toList).map (fun r => r.2.stderrFile) =
        some (some "a 2> b".toList) := by
  have h := redirection_same_spelling_last_wins "echo".toList "a".toList "b".toList
    (by decide) (by decide) (by decide)
  exact ⟨h.1, h.2.2 (by decide) (by decide)⟩

end CShell
